import Mathlib

/-!
Shallow embedding of the shardcast downloader synchronization loop
(src/src/zeroband/inference/shardcast_downloader.py, function main).

Versions are integers.  The local filesystem is observed through two
existence maps per version v: the payload file step_v/model.safetensors
and the stability marker step_v/stable.  The transport call
client.download_version either returns the destination path, returns
None, or raises; each per-tick behaviour of the transport is an oracle
from versions to that three-way outcome.  One tick of the while-loop is
the function tick below; a whole run folds tick over a list of per-tick
inputs, accumulating a trace of observable events (log lines and
filesystem operations).
-/

namespace Shardcast

/-- Outcome of one client.download_version call: the destination path is
returned, None is returned, or an exception is raised. -/
inductive FetchResult where
  | ok
  | noop
  | err
  deriving DecidableEq

/-- Local filesystem state, per version v: payload is existence of
step_v/model.safetensors, stable is existence of step_v/stable. -/
structure LocalFS where
  payload : Int → Bool
  stable : Int → Bool

/-- Pointwise update of a file-existence map. -/
def setFile (f : Int → Bool) (v : Int) (b : Bool) : Int → Bool :=
  fun u => if u = v then b else f u

/-- Mutable state of the loop in main: the filesystem, logged_versions,
missing_versions and the backlog_version cursor. -/
structure DState where
  fs : LocalFS
  logged : Finset Int
  missing : Finset Int
  backlog : Int

/-- Observable events of the loop body.  processed v marks entry of the
for-loop body for version v; fetchAttempt v is the "Downloading version"
log line immediately followed by the download_version call; the unlink
events record an actual file removal; the remaining constructors are the
other log lines of main. -/
inductive Event where
  | warnNoVersions
  | warnNotFound (v : Int)
  | infoExists (v : Int)
  | processed (v : Int)
  | fetchAttempt (v : Int)
  | infoDownloaded (v : Int)
  | markStable (v : Int)
  | infoDeleting (v : Int)
  | unlinkPayload (v : Int)
  | unlinkStable (v : Int)
  | warnExpiredNotFound (v : Int)
  | warnDownloadError (v : Int)
  deriving DecidableEq

/-- Ascending sort of a finite set of versions, as Python sorted produces.
Lifted over the underlying multiset with insertion sort, which the kernel
can evaluate. -/
def sortFin (c : Finset Int) : List Int :=
  Quotient.liftOn c.val (fun l => l.insertionSort (· ≤ ·)) (by
    intro a b hab
    exact List.eq_of_perm_of_sorted
      (((a.perm_insertionSort (· ≤ ·)).trans hab).trans
        (b.perm_insertionSort (· ≤ ·)).symm)
      (List.sorted_insertionSort (· ≤ ·) a)
      (List.sorted_insertionSort (· ≤ ·) b))

/-- Python slice l[i:] for an arbitrary integer index i (a negative index
counts from the end, clamped at 0; note that -0 is 0, so i = 0 keeps the
whole list). -/
def pySlice (l : List Int) (i : Int) : List Int :=
  if i < 0 then l.drop ((l.length + i).toNat) else l.drop i.toNat

/-- The sliding-window portion available_versions[-window_size:] computed
from the sorted catalog. -/
def windowPortion (catalog : Finset Int) (w : Int) : List Int :=
  pySlice (sortFin catalog) (-w)

/-- Static configuration of main: window_size and versions_to_keep
(-1 disables retention). -/
structure Cfg where
  window : Int
  keep : Int

/-- Input of one tick: the polled catalog (keys of list_available_versions,
parsed to integers) and the behaviour of download_version on this tick. -/
structure TickIn where
  catalog : Finset Int
  fetch : Int → FetchResult

/-- target_versions of one tick: the window portion of the catalog, plus
the backlog cursor when backlog mode is active (cursor distinct from -1),
plus the current missing set. -/
def targetsOf (w : Int) (catalog : Finset Int) (backlog : Int)
    (missing : Finset Int) : Finset Int :=
  ((windowPortion catalog w).toFinset ∪
    (if backlog ≠ -1 then {backlog} else ∅)) ∪ missing

/-- The retention block guarded by versions_to_keep != -1: inside one try
block, log "Deleting expired version", unlink the expired payload, then
unlink the expired marker; a FileNotFoundError from either unlink aborts
the rest of the block and is logged as "Expired version not found". -/
def sweepExpired (keep v : Int) (fs : LocalFS) : LocalFS × List Event :=
  if keep ≠ -1 then
    let e := v - keep
    if fs.payload e then
      if fs.stable e then
        (⟨setFile fs.payload e false, setFile fs.stable e false⟩,
          [Event.infoDeleting e, Event.unlinkPayload e, Event.unlinkStable e])
      else
        (⟨setFile fs.payload e false, fs.stable⟩,
          [Event.infoDeleting e, Event.unlinkPayload e,
            Event.warnExpiredNotFound e])
    else
      (fs, [Event.infoDeleting e, Event.warnExpiredNotFound e])
  else (fs, [])

/-- One iteration of the for-loop of main over the sorted target set:
the version-absent-from-catalog branch, the payload-already-exists branch,
and the download attempt with its surrounding try/except. -/
def processVersion (cfg : Cfg) (cat : Finset Int) (fetch : Int → FetchResult)
    (s : DState) (v : Int) : DState × List Event :=
  if v ∉ cat then
    if v ∈ s.logged then
      ({ s with missing := insert v s.missing }, [Event.processed v])
    else
      ({ s with logged := insert v s.logged, missing := insert v s.missing },
        [Event.processed v, Event.warnNotFound v])
  else if s.fs.payload v then
    if v ∈ s.logged then
      ({ s with missing := s.missing.erase v }, [Event.processed v])
    else
      ({ s with logged := insert v s.logged, missing := s.missing.erase v },
        [Event.processed v, Event.infoExists v])
  else
    match fetch v with
    | FetchResult.err =>
        ({ s with missing := insert v s.missing },
          [Event.processed v, Event.fetchAttempt v, Event.warnDownloadError v])
    | FetchResult.noop =>
        (s, [Event.processed v, Event.fetchAttempt v, Event.infoDownloaded v])
    | FetchResult.ok =>
        let swept := sweepExpired cfg.keep v
          ⟨setFile s.fs.payload v true, setFile s.fs.stable v true⟩
        ({ s with fs := swept.1, missing := s.missing.erase v },
          Event.processed v :: Event.fetchAttempt v :: Event.infoDownloaded v ::
            Event.markStable v :: swept.2)

/-- Folding step over the sorted target versions, accumulating the trace. -/
def stepFold (cfg : Cfg) (cat : Finset Int) (fetch : Int → FetchResult)
    (p : DState × List Event) (v : Int) : DState × List Event :=
  let r := processVersion cfg cat fetch p.1 v
  (r.1, p.2 ++ r.2)

/-- One tick of the while-loop: on an empty catalog, the deduplicated
"No versions available" warning (keyed by the sentinel -1 in
logged_versions) and nothing else; otherwise plan the target set, advance
the backlog cursor, and reconcile each target version in ascending
order. -/
def tick (cfg : Cfg) (t : TickIn) (s : DState) : DState × List Event :=
  if t.catalog = ∅ then
    if (-1 : Int) ∈ s.logged then (s, [])
    else ({ s with logged := insert (-1) s.logged }, [Event.warnNoVersions])
  else
    let targets := targetsOf cfg.window t.catalog s.backlog s.missing
    let s1 := if s.backlog ≠ -1 then { s with backlog := s.backlog + 1 } else s
    (sortFin targets).foldl (stepFold cfg t.catalog t.fetch) (s1, [])

/-- A run of successive ticks, with the concatenated trace. -/
def runAcc (cfg : Cfg) : List TickIn → DState → DState × List Event
  | [], s => (s, [])
  | t :: ts, s =>
      let r := tick cfg t s
      let rest := runAcc cfg ts r.1
      (rest.1, r.2 ++ rest.2)

/-- An all-files-absent filesystem, used for concrete runs. -/
def emptyFS : LocalFS := ⟨fun _ => false, fun _ => false⟩

/-- Fresh in-memory loop state over a given filesystem and backlog start. -/
def freshState (fs : LocalFS) (b : Int) : DState := ⟨fs, ∅, ∅, b⟩

/-- Events deduplicated through logged_versions under key k: the empty-catalog
warning is keyed by the sentinel -1, the not-found and already-exists log
lines by their version. -/
def ckey (k : Int) : Event -> Bool
  | Event.warnNoVersions => decide (k = -1)
  | Event.warnNotFound v => decide (k = v)
  | Event.infoExists v => decide (k = v)
  | _ => false

/-- Number of deduplicated-log events under key k in a trace. -/
def onceCnt (k : Int) (tr : List Event) : Nat := tr.countP (ckey k)

/-- A step from state s to state s1 emitting trace tr respects the
once-per-key logging discipline for key k. -/
def OnceProp (k : Int) (s : DState) (tr : List Event) (s1 : DState) : Prop :=
  (k ∈ s.logged → k ∈ s1.logged) ∧ (k ∈ s.logged → onceCnt k tr = 0) ∧
    (1 ≤ onceCnt k tr → k ∈ s1.logged) ∧ onceCnt k tr ≤ 1

/-- Absence of the sentinel -1 from the mutable sets, with a non-negative
backlog cursor: under catalogs not containing -1, the "No versions
available" warning key cannot be set by version processing. -/
def NoSentinel (s : DState) : Prop :=
  (-1 : Int) ∉ s.logged ∧ (-1 : Int) ∉ s.missing ∧ 0 ≤ s.backlog

/-- Filesystem with exactly version 5 present and stable. -/
def fsC2 : LocalFS := ⟨fun u => decide (u = 5), fun u => decide (u = 5)⟩

/-- Loop state over fsC2 with empty tracking sets and backlog disabled. -/
def stC2 : DState := ⟨fsC2, ∅, ∅, -1⟩

/-- One tick whose only catalog entry is 7 and whose transport raises. -/
def tickC3 : TickIn := ⟨{7}, fun _ => FetchResult.err⟩

/-- Filesystem in which only the marker of version 8 exists (payload
absent, as after an external partial cleanup). -/
def fsC4 : LocalFS := ⟨fun _ => false, fun u => decide (u = 8)⟩

/-- Loop state over fsC4 with empty tracking sets and backlog disabled. -/
def stC4 : DState := ⟨fsC4, ∅, ∅, -1⟩

/-- Filesystem in which only the payload of version 5 exists (an
interrupted earlier fetch: payload present, not yet marked stable). -/
def fsC9 : LocalFS := ⟨fun u => decide (u = 5), fun _ => false⟩

/-- Loop state over fsC9 with empty tracking sets and backlog cursor 5,
which puts version 5 into the first tick's target set. -/
def stC9 : DState := ⟨fsC9, ∅, ∅, 5⟩

/-- First tick of the C9 counterexample run: only version 10 advertised. -/
def tickOneC9 : TickIn := ⟨{10}, fun _ => FetchResult.ok⟩

/-- Second tick of the C9 counterexample run: versions 5 and 10
advertised. -/
def tickTwoC9 : TickIn := ⟨{5, 10}, fun _ => FetchResult.ok⟩

/-- A tick advertising only version 3. -/
def tickCat3 : TickIn := ⟨{3}, fun _ => FetchResult.ok⟩

/-- A tick advertising nothing. -/
def tickCatEmpty : TickIn := ⟨∅, fun _ => FetchResult.ok⟩

/-- A tick advertising only version 4. -/
def tickCat4 : TickIn := ⟨{4}, fun _ => FetchResult.ok⟩

theorem sortFin_sorted (c : Finset Int) : List.Sorted (· ≤ ·) (sortFin c) := by
  rcases c with ⟨m, hm⟩
  obtain ⟨l, rfl⟩ := Quotient.exists_rep m
  exact List.sorted_insertionSort (· ≤ ·) l

theorem sortFin_perm (c : Finset Int) : (sortFin c : Multiset Int) = c.val := by
  rcases c with ⟨m, hm⟩
  obtain ⟨l, rfl⟩ := Quotient.exists_rep m
  exact Quotient.sound (l.perm_insertionSort (· ≤ ·))

theorem mem_sortFin {c : Finset Int} {a : Int} : a ∈ sortFin c ↔ a ∈ c := by
  have h := sortFin_perm c
  constructor
  · intro ha
    have : a ∈ (sortFin c : Multiset Int) := by exact_mod_cast ha
    rw [h] at this
    exact this
  · intro ha
    have : a ∈ (sortFin c : Multiset Int) := by rw [h]; exact ha
    exact_mod_cast this

theorem sortFin_nodup (c : Finset Int) : (sortFin c).Nodup := by
  have h : (sortFin c : Multiset Int).Nodup := by rw [sortFin_perm]; exact c.nodup
  exact_mod_cast h

theorem sortFin_length (c : Finset Int) : (sortFin c).length = c.card := by
  have h := congrArg Multiset.card (sortFin_perm c)
  simpa using h

theorem sortFin_sorted_lt (c : Finset Int) : List.Sorted (· < ·) (sortFin c) := by
  have hs := sortFin_sorted c
  have hn : List.Pairwise (· ≠ ·) (sortFin c) := sortFin_nodup c
  exact (hs.and hn).imp (fun h => lt_of_le_of_ne h.1 h.2)


/-! Branch descriptions of sweepExpired and processVersion. -/

theorem sweep_noKeep (v : Int) (fs : LocalFS) :
    sweepExpired (-1) v fs = (fs, []) := by
  simp [sweepExpired]

theorem sweep_absent {keep : Int} (v : Int) (fs : LocalFS) (hk : keep ≠ -1)
    (hp : fs.payload (v - keep) = false) :
    sweepExpired keep v fs =
      (fs, [Event.infoDeleting (v - keep), Event.warnExpiredNotFound (v - keep)]) := by
  simp [sweepExpired, hk, hp]

theorem sweep_present_stable {keep : Int} (v : Int) (fs : LocalFS) (hk : keep ≠ -1)
    (hp : fs.payload (v - keep) = true) (hs : fs.stable (v - keep) = true) :
    sweepExpired keep v fs =
      (⟨setFile fs.payload (v - keep) false, setFile fs.stable (v - keep) false⟩,
        [Event.infoDeleting (v - keep), Event.unlinkPayload (v - keep),
          Event.unlinkStable (v - keep)]) := by
  simp [sweepExpired, hk, hp, hs]

theorem sweep_present_nostable {keep : Int} (v : Int) (fs : LocalFS) (hk : keep ≠ -1)
    (hp : fs.payload (v - keep) = true) (hs : fs.stable (v - keep) = false) :
    sweepExpired keep v fs =
      (⟨setFile fs.payload (v - keep) false, fs.stable⟩,
        [Event.infoDeleting (v - keep), Event.unlinkPayload (v - keep),
          Event.warnExpiredNotFound (v - keep)]) := by
  simp [sweepExpired, hk, hp, hs]

theorem sweep_fs_cases (keep v : Int) (fs : LocalFS) :
    ((sweepExpired keep v fs).1.payload = fs.payload ∨
      (sweepExpired keep v fs).1.payload = setFile fs.payload (v - keep) false) ∧
    ((sweepExpired keep v fs).1.stable = fs.stable ∨
      (sweepExpired keep v fs).1.stable = setFile fs.stable (v - keep) false) := by
  by_cases hk : keep = -1
  · rw [hk, sweep_noKeep]
    exact ⟨Or.inl rfl, Or.inl rfl⟩
  · by_cases hp : fs.payload (v - keep) = true
    · by_cases hs : fs.stable (v - keep) = true
      · rw [sweep_present_stable v fs hk hp hs]
        exact ⟨Or.inr rfl, Or.inr rfl⟩
      · have hs' : fs.stable (v - keep) = false := Bool.eq_false_iff.mpr hs
        rw [sweep_present_nostable v fs hk hp hs']
        exact ⟨Or.inr rfl, Or.inl rfl⟩
    · have hp' : fs.payload (v - keep) = false := Bool.eq_false_iff.mpr hp
      rw [sweep_absent v fs hk hp']
      exact ⟨Or.inl rfl, Or.inl rfl⟩

theorem bool_false_of_not_true {b : Bool} (h : ¬ b = true) : b = false :=
  Bool.eq_false_iff.mpr h

theorem sweep_events_cases (keep v : Int) (fs : LocalFS) :
    (sweepExpired keep v fs).2 = [] ∨
    (sweepExpired keep v fs).2 =
      [Event.infoDeleting (v - keep), Event.warnExpiredNotFound (v - keep)] ∨
    (sweepExpired keep v fs).2 =
      [Event.infoDeleting (v - keep), Event.unlinkPayload (v - keep),
        Event.unlinkStable (v - keep)] ∨
    (sweepExpired keep v fs).2 =
      [Event.infoDeleting (v - keep), Event.unlinkPayload (v - keep),
        Event.warnExpiredNotFound (v - keep)] := by
  by_cases hk : keep = -1
  · rw [hk, sweep_noKeep]
    exact Or.inl rfl
  · by_cases hp : fs.payload (v - keep) = true
    · by_cases hs : fs.stable (v - keep) = true
      · rw [sweep_present_stable v fs hk hp hs]
        exact Or.inr (Or.inr (Or.inl rfl))
      · rw [sweep_present_nostable v fs hk hp (bool_false_of_not_true hs)]
        exact Or.inr (Or.inr (Or.inr rfl))
    · rw [sweep_absent v fs hk (bool_false_of_not_true hp)]
      exact Or.inr (Or.inl rfl)

theorem sweep_payload_le {keep v : Int} {fs : LocalFS} (u : Int)
    (h : (sweepExpired keep v fs).1.payload u = true) : fs.payload u = true := by
  rcases (sweep_fs_cases keep v fs).1 with hc | hc <;> rw [hc] at h
  · exact h
  · by_cases hu : u = v - keep
    · simp [setFile, hu] at h
    · simpa [setFile, hu] using h

theorem sweep_stable_le {keep v : Int} {fs : LocalFS} (u : Int)
    (h : (sweepExpired keep v fs).1.stable u = true) : fs.stable u = true := by
  rcases (sweep_fs_cases keep v fs).2 with hc | hc <;> rw [hc] at h
  · exact h
  · by_cases hu : u = v - keep
    · simp [setFile, hu] at h
    · simpa [setFile, hu] using h

theorem pv_notin (cfg : Cfg) (cat : Finset Int) (f : Int → FetchResult)
    (s : DState) (v : Int) (h : v ∉ cat) :
    (processVersion cfg cat f s v).1.fs = s.fs ∧
    (processVersion cfg cat f s v).1.missing = insert v s.missing ∧
    (processVersion cfg cat f s v).1.backlog = s.backlog ∧
    (processVersion cfg cat f s v).1.logged =
      (if v ∈ s.logged then s.logged else insert v s.logged) ∧
    (processVersion cfg cat f s v).2 =
      Event.processed v :: (if v ∈ s.logged then [] else [Event.warnNotFound v]) := by
  by_cases hl : v ∈ s.logged <;> simp [processVersion, h, hl]

theorem pv_payload (cfg : Cfg) (cat : Finset Int) (f : Int → FetchResult)
    (s : DState) (v : Int) (hcat : v ∈ cat) (hp : s.fs.payload v = true) :
    (processVersion cfg cat f s v).1.fs = s.fs ∧
    (processVersion cfg cat f s v).1.missing = s.missing.erase v ∧
    (processVersion cfg cat f s v).1.backlog = s.backlog ∧
    (processVersion cfg cat f s v).1.logged =
      (if v ∈ s.logged then s.logged else insert v s.logged) ∧
    (processVersion cfg cat f s v).2 =
      Event.processed v :: (if v ∈ s.logged then [] else [Event.infoExists v]) := by
  by_cases hl : v ∈ s.logged <;> simp [processVersion, hcat, hp, hl]

theorem pv_err (cfg : Cfg) (cat : Finset Int) (f : Int → FetchResult)
    (s : DState) (v : Int) (hcat : v ∈ cat) (hp : s.fs.payload v = false)
    (hf : f v = FetchResult.err) :
    processVersion cfg cat f s v =
      ({ s with missing := insert v s.missing },
        [Event.processed v, Event.fetchAttempt v, Event.warnDownloadError v]) := by
  simp [processVersion, hcat, hp, hf]

theorem pv_noop (cfg : Cfg) (cat : Finset Int) (f : Int → FetchResult)
    (s : DState) (v : Int) (hcat : v ∈ cat) (hp : s.fs.payload v = false)
    (hf : f v = FetchResult.noop) :
    processVersion cfg cat f s v =
      (s, [Event.processed v, Event.fetchAttempt v, Event.infoDownloaded v]) := by
  simp [processVersion, hcat, hp, hf]

theorem pv_ok (cfg : Cfg) (cat : Finset Int) (f : Int → FetchResult)
    (s : DState) (v : Int) (hcat : v ∈ cat) (hp : s.fs.payload v = false)
    (hf : f v = FetchResult.ok) :
    processVersion cfg cat f s v =
      ({ s with
          fs := (sweepExpired cfg.keep v
            ⟨setFile s.fs.payload v true, setFile s.fs.stable v true⟩).1,
          missing := s.missing.erase v },
        Event.processed v :: Event.fetchAttempt v :: Event.infoDownloaded v ::
          Event.markStable v ::
          (sweepExpired cfg.keep v
            ⟨setFile s.fs.payload v true, setFile s.fs.stable v true⟩).2) := by
  simp [processVersion, hcat, hp, hf]

/-! Facts holding in every branch of processVersion. -/

theorem pv_backlog (cfg : Cfg) (cat : Finset Int) (f : Int → FetchResult)
    (s : DState) (v : Int) :
    (processVersion cfg cat f s v).1.backlog = s.backlog := by
  by_cases h1 : v ∉ cat
  · exact (pv_notin cfg cat f s v h1).2.2.1
  · push_neg at h1
    by_cases h2 : s.fs.payload v = true
    · exact (pv_payload cfg cat f s v h1 h2).2.2.1
    · have h2f := bool_false_of_not_true h2
      cases hf : f v
      · rw [pv_ok cfg cat f s v h1 h2f hf]
      · rw [pv_noop cfg cat f s v h1 h2f hf]
      · rw [pv_err cfg cat f s v h1 h2f hf]

theorem pv_logged_cases (cfg : Cfg) (cat : Finset Int) (f : Int → FetchResult)
    (s : DState) (v : Int) :
    (processVersion cfg cat f s v).1.logged = s.logged ∨
    (processVersion cfg cat f s v).1.logged = insert v s.logged := by
  by_cases h1 : v ∉ cat
  · rw [(pv_notin cfg cat f s v h1).2.2.2.1]
    by_cases hl : v ∈ s.logged
    · exact Or.inl (by rw [if_pos hl])
    · exact Or.inr (by rw [if_neg hl])
  · push_neg at h1
    by_cases h2 : s.fs.payload v = true
    · rw [(pv_payload cfg cat f s v h1 h2).2.2.2.1]
      by_cases hl : v ∈ s.logged
      · exact Or.inl (by rw [if_pos hl])
      · exact Or.inr (by rw [if_neg hl])
    · have h2f := bool_false_of_not_true h2
      cases hf : f v
      · rw [pv_ok cfg cat f s v h1 h2f hf]; exact Or.inl rfl
      · rw [pv_noop cfg cat f s v h1 h2f hf]; exact Or.inl rfl
      · rw [pv_err cfg cat f s v h1 h2f hf]; exact Or.inl rfl

theorem pv_missing_cases (cfg : Cfg) (cat : Finset Int) (f : Int → FetchResult)
    (s : DState) (v : Int) :
    (processVersion cfg cat f s v).1.missing = insert v s.missing ∨
    (processVersion cfg cat f s v).1.missing = s.missing.erase v ∨
    (processVersion cfg cat f s v).1.missing = s.missing := by
  by_cases h1 : v ∉ cat
  · exact Or.inl (pv_notin cfg cat f s v h1).2.1
  · push_neg at h1
    by_cases h2 : s.fs.payload v = true
    · exact Or.inr (Or.inl (pv_payload cfg cat f s v h1 h2).2.1)
    · have h2f := bool_false_of_not_true h2
      cases hf : f v
      · rw [pv_ok cfg cat f s v h1 h2f hf]; exact Or.inr (Or.inl rfl)
      · rw [pv_noop cfg cat f s v h1 h2f hf]; exact Or.inr (Or.inr rfl)
      · rw [pv_err cfg cat f s v h1 h2f hf]; exact Or.inl rfl

theorem pv_logged_mono (cfg : Cfg) (cat : Finset Int) (f : Int → FetchResult)
    (s : DState) (v k : Int) (hk : k ∈ s.logged) :
    k ∈ (processVersion cfg cat f s v).1.logged := by
  rcases pv_logged_cases cfg cat f s v with h | h <;> rw [h]
  · exact hk
  · exact Finset.mem_insert_of_mem hk

theorem pv_missing_other_in (cfg : Cfg) (cat : Finset Int) (f : Int → FetchResult)
    (s : DState) (v u : Int) (huv : u ≠ v) (hu : u ∈ s.missing) :
    u ∈ (processVersion cfg cat f s v).1.missing := by
  rcases pv_missing_cases cfg cat f s v with h | h | h <;> rw [h]
  · exact Finset.mem_insert_of_mem hu
  · exact Finset.mem_erase.mpr ⟨huv, hu⟩
  · exact hu

theorem pv_missing_other_out (cfg : Cfg) (cat : Finset Int) (f : Int → FetchResult)
    (s : DState) (v u : Int) (huv : u ≠ v) (hu : u ∉ s.missing) :
    u ∉ (processVersion cfg cat f s v).1.missing := by
  rcases pv_missing_cases cfg cat f s v with h | h | h <;> rw [h]
  · simp [Finset.mem_insert, huv, hu]
  · simp [Finset.mem_erase, hu]
  · exact hu

theorem pv_payload_false (cfg : Cfg) (cat : Finset Int) (f : Int → FetchResult)
    (s : DState) (v u : Int) (huv : u ≠ v) (hu : s.fs.payload u = false) :
    (processVersion cfg cat f s v).1.fs.payload u = false := by
  by_cases h1 : v ∉ cat
  · rw [(pv_notin cfg cat f s v h1).1]; exact hu
  · push_neg at h1
    by_cases h2 : s.fs.payload v = true
    · rw [(pv_payload cfg cat f s v h1 h2).1]; exact hu
    · have h2f := bool_false_of_not_true h2
      cases hf : f v
      · rw [pv_ok cfg cat f s v h1 h2f hf]
        cases hres : (sweepExpired cfg.keep v
            ⟨setFile s.fs.payload v true, setFile s.fs.stable v true⟩).1.payload u
        · rfl
        · have hle := sweep_payload_le u hres
          simp only [setFile] at hle
          rw [if_neg huv] at hle
          rw [hle] at hu
          simp at hu
      · rw [pv_noop cfg cat f s v h1 h2f hf]; exact hu
      · rw [pv_err cfg cat f s v h1 h2f hf]; exact hu


theorem pv_events_head (cfg : Cfg) (cat : Finset Int) (f : Int → FetchResult)
    (s : DState) (v : Int) :
    ∃ rest, (processVersion cfg cat f s v).2 = Event.processed v :: rest := by
  by_cases h1 : v ∉ cat
  · exact ⟨_, (pv_notin cfg cat f s v h1).2.2.2.2⟩
  · push_neg at h1
    by_cases h2 : s.fs.payload v = true
    · exact ⟨_, (pv_payload cfg cat f s v h1 h2).2.2.2.2⟩
    · have h2f := bool_false_of_not_true h2
      cases hf : f v
      · rw [pv_ok cfg cat f s v h1 h2f hf]; exact ⟨_, rfl⟩
      · rw [pv_noop cfg cat f s v h1 h2f hf]; exact ⟨_, rfl⟩
      · rw [pv_err cfg cat f s v h1 h2f hf]; exact ⟨_, rfl⟩

theorem pv_processed (cfg : Cfg) (cat : Finset Int) (f : Int → FetchResult)
    (s : DState) (v : Int) :
    Event.processed v ∈ (processVersion cfg cat f s v).2 := by
  obtain ⟨rest, hr⟩ := pv_events_head cfg cat f s v
  rw [hr]
  exact List.mem_cons_self _ _

/-! Lemmas about the fold of processVersion over the sorted target list. -/

theorem fold_trace_mono (cfg : Cfg) (cat : Finset Int) (f : Int → FetchResult)
    (L : List Int) (p : DState × List Event) (e : Event) (he : e ∈ p.2) :
    e ∈ (L.foldl (stepFold cfg cat f) p).2 := by
  induction L generalizing p with
  | nil => exact he
  | cons u L ih =>
      refine ih (stepFold cfg cat f p u) ?_
      simp only [stepFold]
      exact List.mem_append_left _ he

theorem fold_processed_all (cfg : Cfg) (cat : Finset Int) (f : Int → FetchResult)
    (L : List Int) (p : DState × List Event) :
    ∀ u ∈ L, Event.processed u ∈ (L.foldl (stepFold cfg cat f) p).2 := by
  induction L generalizing p with
  | nil => intro u hu; cases hu
  | cons x L ih =>
      intro u hu
      rcases List.mem_cons.mp hu with rfl | hu
      · refine fold_trace_mono cfg cat f L (stepFold cfg cat f p u) _ ?_
        simp only [stepFold]
        exact List.mem_append_right _ (pv_processed cfg cat f p.1 u)
      · exact ih (stepFold cfg cat f p x) u hu

theorem fold_backlog (cfg : Cfg) (cat : Finset Int) (f : Int → FetchResult)
    (L : List Int) (p : DState × List Event) :
    (L.foldl (stepFold cfg cat f) p).1.backlog = p.1.backlog := by
  induction L generalizing p with
  | nil => rfl
  | cons u L ih =>
      rw [List.foldl_cons, ih]
      exact pv_backlog cfg cat f p.1 u

theorem fold_logged_mono (cfg : Cfg) (cat : Finset Int) (f : Int → FetchResult)
    (L : List Int) (p : DState × List Event) (k : Int) (hk : k ∈ p.1.logged) :
    k ∈ (L.foldl (stepFold cfg cat f) p).1.logged := by
  induction L generalizing p with
  | nil => exact hk
  | cons u L ih =>
      exact ih (stepFold cfg cat f p u) (pv_logged_mono cfg cat f p.1 u k hk)

theorem fold_missing_in (cfg : Cfg) (cat : Finset Int) (f : Int → FetchResult)
    (L : List Int) (p : DState × List Event) (v : Int) :
    v ∉ L → v ∈ p.1.missing → v ∈ (L.foldl (stepFold cfg cat f) p).1.missing := by
  induction L generalizing p with
  | nil => exact fun _ hv => hv
  | cons u L ih =>
      intro hvL hv
      have huv : v ≠ u := fun h => hvL (h ▸ List.mem_cons_self u L)
      exact ih (stepFold cfg cat f p u)
        (fun h => hvL (List.mem_cons_of_mem u h))
        (pv_missing_other_in cfg cat f p.1 u v huv hv)

theorem fold_missing_out (cfg : Cfg) (cat : Finset Int) (f : Int → FetchResult)
    (L : List Int) (p : DState × List Event) (v : Int) :
    v ∉ L → v ∉ p.1.missing → v ∉ (L.foldl (stepFold cfg cat f) p).1.missing := by
  induction L generalizing p with
  | nil => exact fun _ hv => hv
  | cons u L ih =>
      intro hvL hv
      have huv : v ≠ u := fun h => hvL (h ▸ List.mem_cons_self u L)
      exact ih (stepFold cfg cat f p u)
        (fun h => hvL (List.mem_cons_of_mem u h))
        (pv_missing_other_out cfg cat f p.1 u v huv hv)

theorem fold_payload_false (cfg : Cfg) (cat : Finset Int) (f : Int → FetchResult)
    (L : List Int) (p : DState × List Event) (v : Int) :
    v ∉ L → p.1.fs.payload v = false →
      (L.foldl (stepFold cfg cat f) p).1.fs.payload v = false := by
  induction L generalizing p with
  | nil => exact fun _ hv => hv
  | cons u L ih =>
      intro hvL hv
      have huv : v ≠ u := fun h => hvL (h ▸ List.mem_cons_self u L)
      exact ih (stepFold cfg cat f p u)
        (fun h => hvL (List.mem_cons_of_mem u h))
        (pv_payload_false cfg cat f p.1 u v huv hv)

theorem nodup_split {L : List Int} {v : Int} (hv : v ∈ L) (hnd : L.Nodup) :
    ∃ L1 L2, L = L1 ++ v :: L2 ∧ v ∉ L1 ∧ v ∉ L2 := by
  obtain ⟨L1, L2, rfl⟩ := List.append_of_mem hv
  refine ⟨L1, L2, rfl, ?_, ?_⟩
  · intro hv1
    rcases List.nodup_append.mp hnd with ⟨-, -, hdisj⟩
    exact hdisj hv1 (List.mem_cons_self v L2)
  · rcases List.nodup_append.mp hnd with ⟨-, hnd2, -⟩
    exact (List.nodup_cons.mp hnd2).1


/-! Tick-level lemmas. -/

theorem tick_empty_logged (cfg : Cfg) (t : TickIn) (s : DState)
    (he : t.catalog = ∅) (hl : (-1 : Int) ∈ s.logged) :
    tick cfg t s = (s, []) := by
  simp [tick, he, hl]

theorem tick_empty_fresh (cfg : Cfg) (t : TickIn) (s : DState)
    (he : t.catalog = ∅) (hl : (-1 : Int) ∉ s.logged) :
    tick cfg t s =
      ({ s with logged := insert (-1) s.logged }, [Event.warnNoVersions]) := by
  simp [tick, he, hl]

theorem tick_nonempty (cfg : Cfg) (t : TickIn) (s : DState)
    (hne : t.catalog ≠ ∅) :
    tick cfg t s =
      (sortFin (targetsOf cfg.window t.catalog s.backlog s.missing)).foldl
        (stepFold cfg t.catalog t.fetch)
        ((if s.backlog ≠ -1 then { s with backlog := s.backlog + 1 } else s),
          []) := by
  simp [tick, hne]

theorem tick_fetch (cfg : Cfg) (t : TickIn) (s : DState) (v : Int)
    (hne : t.catalog ≠ ∅)
    (hv : v ∈ targetsOf cfg.window t.catalog s.backlog s.missing)
    (hcat : v ∈ t.catalog) (hpay : s.fs.payload v = false) :
    Event.fetchAttempt v ∈ (tick cfg t s).2 ∧
    (t.fetch v = FetchResult.err →
      Event.warnDownloadError v ∈ (tick cfg t s).2 ∧
        v ∈ (tick cfg t s).1.missing) ∧
    (t.fetch v = FetchResult.ok → v ∉ (tick cfg t s).1.missing) := by
  have htick := tick_nonempty cfg t s hne
  have hvL : v ∈ sortFin (targetsOf cfg.window t.catalog s.backlog s.missing) :=
    mem_sortFin.mpr hv
  obtain ⟨L1, L2, hsplit, hv1, hv2⟩ := nodup_split hvL (sortFin_nodup _)
  set p0 : DState × List Event :=
    ((if s.backlog ≠ -1 then { s with backlog := s.backlog + 1 } else s), [])
    with hp0
  have hfs0 : p0.1.fs = s.fs := by rw [hp0]; split <;> rfl
  set pa := L1.foldl (stepFold cfg t.catalog t.fetch) p0 with hpa
  have hpayA : pa.1.fs.payload v = false := by
    refine fold_payload_false cfg t.catalog t.fetch L1 p0 v hv1 ?_
    rw [hfs0]; exact hpay
  have hdecom : tick cfg t s =
      L2.foldl (stepFold cfg t.catalog t.fetch)
        (stepFold cfg t.catalog t.fetch pa v) := by
    rw [htick, hsplit, List.foldl_append, List.foldl_cons]
  refine ⟨?_, ?_, ?_⟩
  · rw [hdecom]
    refine fold_trace_mono _ _ _ _ _ _ ?_
    simp only [stepFold]
    refine List.mem_append_right _ ?_
    cases hf : t.fetch v
    · rw [pv_ok cfg t.catalog t.fetch pa.1 v hcat hpayA hf]; simp
    · rw [pv_noop cfg t.catalog t.fetch pa.1 v hcat hpayA hf]; simp
    · rw [pv_err cfg t.catalog t.fetch pa.1 v hcat hpayA hf]; simp
  · intro hf
    constructor
    · rw [hdecom]
      refine fold_trace_mono _ _ _ _ _ _ ?_
      simp only [stepFold]
      refine List.mem_append_right _ ?_
      rw [pv_err cfg t.catalog t.fetch pa.1 v hcat hpayA hf]; simp
    · rw [hdecom]
      refine fold_missing_in _ _ _ _ _ _ hv2 ?_
      simp only [stepFold]
      rw [pv_err cfg t.catalog t.fetch pa.1 v hcat hpayA hf]
      exact Finset.mem_insert_self v _
  · intro hf
    rw [hdecom]
    refine fold_missing_out _ _ _ _ _ _ hv2 ?_
    simp only [stepFold]
    rw [pv_ok cfg t.catalog t.fetch pa.1 v hcat hpayA hf]
    simp

theorem tick_notfound (cfg : Cfg) (t : TickIn) (s : DState) (v : Int)
    (hne : t.catalog ≠ ∅)
    (hv : v ∈ targetsOf cfg.window t.catalog s.backlog s.missing)
    (hnot : v ∉ t.catalog) :
    v ∈ (tick cfg t s).1.missing ∧
    (s.fs.payload v = false → (tick cfg t s).1.fs.payload v = false) := by
  have htick := tick_nonempty cfg t s hne
  have hvL : v ∈ sortFin (targetsOf cfg.window t.catalog s.backlog s.missing) :=
    mem_sortFin.mpr hv
  obtain ⟨L1, L2, hsplit, hv1, hv2⟩ := nodup_split hvL (sortFin_nodup _)
  set p0 : DState × List Event :=
    ((if s.backlog ≠ -1 then { s with backlog := s.backlog + 1 } else s), [])
    with hp0
  have hfs0 : p0.1.fs = s.fs := by rw [hp0]; split <;> rfl
  set pa := L1.foldl (stepFold cfg t.catalog t.fetch) p0 with hpa
  have hdecom : tick cfg t s =
      L2.foldl (stepFold cfg t.catalog t.fetch)
        (stepFold cfg t.catalog t.fetch pa v) := by
    rw [htick, hsplit, List.foldl_append, List.foldl_cons]
  have hstep := pv_notin cfg t.catalog t.fetch pa.1 v hnot
  constructor
  · rw [hdecom]
    refine fold_missing_in _ _ _ _ _ _ hv2 ?_
    simp only [stepFold]
    rw [hstep.2.1]
    exact Finset.mem_insert_self v _
  · intro hpay
    have hpayA : pa.1.fs.payload v = false := by
      refine fold_payload_false cfg t.catalog t.fetch L1 p0 v hv1 ?_
      rw [hfs0]; exact hpay
    rw [hdecom]
    refine fold_payload_false _ _ _ _ _ _ hv2 ?_
    simp only [stepFold]
    rw [hstep.1]
    exact hpayA

theorem tick_processed_all (cfg : Cfg) (t : TickIn) (s : DState)
    (hne : t.catalog ≠ ∅) :
    ∀ u ∈ targetsOf cfg.window t.catalog s.backlog s.missing,
      Event.processed u ∈ (tick cfg t s).2 := by
  intro u hu
  rw [tick_nonempty cfg t s hne]
  exact fold_processed_all cfg t.catalog t.fetch _ _ u (mem_sortFin.mpr hu)

theorem tick_backlog_adv (cfg : Cfg) (t : TickIn) (s : DState)
    (hne : t.catalog ≠ ∅) (hb : s.backlog ≠ -1) :
    (tick cfg t s).1.backlog = s.backlog + 1 := by
  rw [tick_nonempty cfg t s hne, fold_backlog]
  simp [hb]

theorem tick_backlog_empty (cfg : Cfg) (t : TickIn) (s : DState)
    (he : t.catalog = ∅) :
    (tick cfg t s).1.backlog = s.backlog := by
  by_cases hl : (-1 : Int) ∈ s.logged
  · rw [tick_empty_logged cfg t s he hl]
  · rw [tick_empty_fresh cfg t s he hl]


/-! Once-per-key logging machinery. -/

theorem onceCnt_nil (k : Int) : onceCnt k [] = 0 := rfl

theorem onceCnt_append (k : Int) (a b : List Event) :
    onceCnt k (a ++ b) = onceCnt k a + onceCnt k b := by
  simp [onceCnt, List.countP_append]

theorem once_refl (k : Int) (s : DState) : OnceProp k s [] s :=
  ⟨id, fun _ => onceCnt_nil k,
    fun h => absurd h (by rw [onceCnt_nil k]; exact Nat.not_succ_le_zero 0),
    by rw [onceCnt_nil k]; exact Nat.zero_le 1⟩

theorem once_comp {k : Int} {s1 s2 s3 : DState} {tr1 tr2 : List Event}
    (h1 : OnceProp k s1 tr1 s2) (h2 : OnceProp k s2 tr2 s3) :
    OnceProp k s1 (tr1 ++ tr2) s3 := by
  obtain ⟨m1, z1, g1, b1⟩ := h1
  obtain ⟨m2, z2, g2, b2⟩ := h2
  refine ⟨fun h => m2 (m1 h), ?_, ?_, ?_⟩
  · intro h
    rw [onceCnt_append, z1 h, z2 (m1 h)]
  · intro h
    rw [onceCnt_append] at h
    rcases Nat.lt_or_ge (onceCnt k tr1) 1 with hlt | hge
    · have h1z : onceCnt k tr1 = 0 := Nat.lt_one_iff.mp hlt
      rw [h1z, Nat.zero_add] at h
      exact g2 h
    · exact m2 (g1 hge)
  · rw [onceCnt_append]
    rcases Nat.lt_or_ge (onceCnt k tr1) 1 with hlt | hge
    · have h1z : onceCnt k tr1 = 0 := Nat.lt_one_iff.mp hlt
      rw [h1z, Nat.zero_add]
      exact b2
    · have := z2 (g1 hge)
      rw [this]
      exact b1

theorem pv_once (cfg : Cfg) (cat : Finset Int) (f : Int → FetchResult)
    (s : DState) (v k : Int) :
    OnceProp k s (processVersion cfg cat f s v).2
      (processVersion cfg cat f s v).1 := by
  by_cases h1 : v ∉ cat
  · obtain ⟨-, -, -, hlog, hev⟩ := pv_notin cfg cat f s v h1
    unfold OnceProp
    rw [hev, hlog]
    by_cases hl : v ∈ s.logged
    · simp [hl, onceCnt, ckey, List.countP_cons]
    · by_cases hk : k = v
      · subst hk
        simp [hl, onceCnt, ckey, List.countP_cons]
      · simp [hl, hk, onceCnt, ckey, List.countP_cons, Finset.mem_insert]
  · push_neg at h1
    by_cases h2 : s.fs.payload v = true
    · obtain ⟨-, -, -, hlog, hev⟩ := pv_payload cfg cat f s v h1 h2
      unfold OnceProp
      rw [hev, hlog]
      by_cases hl : v ∈ s.logged
      · simp [hl, onceCnt, ckey, List.countP_cons]
      · by_cases hk : k = v
        · subst hk
          simp [hl, onceCnt, ckey, List.countP_cons]
        · simp [hl, hk, onceCnt, ckey, List.countP_cons, Finset.mem_insert]
    · have h2f := bool_false_of_not_true h2
      cases hf : f v
      · rw [pv_ok cfg cat f s v h1 h2f hf]
        unfold OnceProp
        have hsw : onceCnt k (sweepExpired cfg.keep v
            ⟨setFile s.fs.payload v true, setFile s.fs.stable v true⟩).2 = 0 := by
          rcases sweep_events_cases cfg.keep v
            ⟨setFile s.fs.payload v true, setFile s.fs.stable v true⟩ with
            h | h | h | h <;> rw [h] <;> simp [onceCnt, ckey, List.countP_cons]
        simp only [onceCnt, ckey, List.countP_cons, List.countP_nil] at hsw ⊢
        simp [hsw]
      · rw [pv_noop cfg cat f s v h1 h2f hf]
        unfold OnceProp
        simp [onceCnt, ckey, List.countP_cons]
      · rw [pv_err cfg cat f s v h1 h2f hf]
        unfold OnceProp
        simp [onceCnt, ckey, List.countP_cons]


theorem fold_decomp (cfg : Cfg) (cat : Finset Int) (f : Int → FetchResult)
    (L : List Int) (s : DState) (acc : List Event) :
    (L.foldl (stepFold cfg cat f) (s, acc)).1 =
      (L.foldl (stepFold cfg cat f) (s, [])).1 ∧
    (L.foldl (stepFold cfg cat f) (s, acc)).2 =
      acc ++ (L.foldl (stepFold cfg cat f) (s, [])).2 := by
  induction L generalizing s acc with
  | nil => exact ⟨rfl, by simp⟩
  | cons u L ih =>
      simp only [List.foldl_cons, stepFold, List.nil_append]
      obtain ⟨ih1, ih2⟩ :=
        ih (processVersion cfg cat f s u).1 (acc ++ (processVersion cfg cat f s u).2)
      obtain ⟨ih1b, ih2b⟩ :=
        ih (processVersion cfg cat f s u).1 (processVersion cfg cat f s u).2
      refine ⟨by rw [ih1, ih1b], ?_⟩
      rw [ih2, ih2b, List.append_assoc]

theorem fold_once (cfg : Cfg) (cat : Finset Int) (f : Int → FetchResult)
    (L : List Int) (s : DState) (k : Int) :
    OnceProp k s (L.foldl (stepFold cfg cat f) (s, [])).2
      (L.foldl (stepFold cfg cat f) (s, [])).1 := by
  induction L generalizing s with
  | nil => exact once_refl k s
  | cons u L ih =>
      simp only [List.foldl_cons, stepFold, List.nil_append]
      obtain ⟨h1, h2⟩ := fold_decomp cfg cat f L
        (processVersion cfg cat f s u).1 (processVersion cfg cat f s u).2
      rw [h1, h2]
      exact once_comp (pv_once cfg cat f s u k)
        (ih (processVersion cfg cat f s u).1)

theorem tick_once (cfg : Cfg) (t : TickIn) (s : DState) (k : Int) :
    OnceProp k s (tick cfg t s).2 (tick cfg t s).1 := by
  by_cases he : t.catalog = ∅
  · by_cases hl : (-1 : Int) ∈ s.logged
    · rw [tick_empty_logged cfg t s he hl]
      exact once_refl k s
    · rw [tick_empty_fresh cfg t s he hl]
      by_cases hk : k = -1
      · subst hk
        refine ⟨fun h => absurd h hl, fun h => absurd h hl, ?_, ?_⟩ <;>
          simp [onceCnt, ckey, List.countP_cons, Finset.mem_insert]
      · refine ⟨fun h => Finset.mem_insert_of_mem h, ?_, ?_, ?_⟩ <;>
          simp [onceCnt, ckey, List.countP_cons, hk]
  · rw [tick_nonempty cfg t s he]
    set s1 : DState :=
      if s.backlog ≠ -1 then { s with backlog := s.backlog + 1 } else s with hs1
    have hlog : s1.logged = s.logged := by rw [hs1]; split <;> rfl
    have h := fold_once cfg t.catalog t.fetch
      (sortFin (targetsOf cfg.window t.catalog s.backlog s.missing)) s1 k
    obtain ⟨m, z, g, b⟩ := h
    rw [hlog] at m z
    exact ⟨m, z, g, b⟩

theorem run_once (cfg : Cfg) (ts : List TickIn) (s : DState) (k : Int) :
    OnceProp k s (runAcc cfg ts s).2 (runAcc cfg ts s).1 := by
  induction ts generalizing s with
  | nil => exact once_refl k s
  | cons t ts ih =>
      exact once_comp (tick_once cfg t s k) (ih (tick cfg t s).1)

theorem count_le_onceCnt (tr : List Event) (e : Event) (k : Int)
    (h : ckey k e = true) : tr.count e ≤ onceCnt k tr := by
  unfold onceCnt
  rw [List.count]
  refine List.countP_mono_left ?_
  intro a _ ha
  have : a = e := by simpa using ha
  rw [this]
  exact h

theorem run_count_warnNotFound (cfg : Cfg) (ts : List TickIn) (s : DState)
    (v : Int) : (runAcc cfg ts s).2.count (Event.warnNotFound v) ≤ 1 := by
  refine le_trans (count_le_onceCnt _ _ v ?_) (run_once cfg ts s v).2.2.2
  simp [ckey]

theorem run_count_infoExists (cfg : Cfg) (ts : List TickIn) (s : DState)
    (v : Int) : (runAcc cfg ts s).2.count (Event.infoExists v) ≤ 1 := by
  refine le_trans (count_le_onceCnt _ _ v ?_) (run_once cfg ts s v).2.2.2
  simp [ckey]

theorem run_count_warnNoVersions (cfg : Cfg) (ts : List TickIn) (s : DState) :
    (runAcc cfg ts s).2.count Event.warnNoVersions ≤ 1 := by
  refine le_trans (count_le_onceCnt _ _ (-1) ?_) (run_once cfg ts s (-1)).2.2.2
  simp [ckey]


/-! Run-level lemmas. -/

theorem runAcc_append (cfg : Cfg) (ts1 ts2 : List TickIn) (s : DState) :
    runAcc cfg (ts1 ++ ts2) s =
      ((runAcc cfg ts2 (runAcc cfg ts1 s).1).1,
        (runAcc cfg ts1 s).2 ++ (runAcc cfg ts2 (runAcc cfg ts1 s).1).2) := by
  induction ts1 generalizing s with
  | nil => simp [runAcc]
  | cons t ts1 ih =>
      simp only [List.cons_append, runAcc]
      simp only [List.append_eq]
      rw [ih (tick cfg t s).1]
      simp [List.append_assoc]

theorem windowPortion_subset {c : Finset Int} {w x : Int}
    (hx : x ∈ windowPortion c w) : x ∈ c := by
  unfold windowPortion pySlice at hx
  split at hx <;> exact mem_sortFin.mp (List.mem_of_mem_drop hx)

theorem mem_targetsOf {w cat b missing} {x : Int}
    (hx : x ∈ targetsOf w cat b missing) :
    x ∈ cat ∨ (b ≠ -1 ∧ x = b) ∨ x ∈ missing := by
  rcases Finset.mem_union.mp hx with h | h
  · rcases Finset.mem_union.mp h with h | h
    · exact Or.inl (windowPortion_subset (List.mem_toFinset.mp h))
    · by_cases hb : b ≠ -1
      · rw [if_pos hb] at h
        exact Or.inr (Or.inl ⟨hb, Finset.mem_singleton.mp h⟩)
      · rw [if_neg hb] at h
        exact absurd h (Finset.not_mem_empty x)
  · exact Or.inr (Or.inr h)

theorem backlog_mem_targets (w : Int) (cat : Finset Int) (b : Int)
    (missing : Finset Int) (hb : b ≠ -1) : b ∈ targetsOf w cat b missing := by
  refine Finset.mem_union_left _ (Finset.mem_union_right _ ?_)
  rw [if_pos hb]
  exact Finset.mem_singleton_self b

theorem runAcc_backlog (cfg : Cfg) (ts : List TickIn) (s : DState)
    (hb : 0 ≤ s.backlog) :
    (runAcc cfg ts s).1.backlog =
      s.backlog + (ts.countP (fun t => decide (t.catalog ≠ ∅)) : Int) ∧
    0 ≤ (runAcc cfg ts s).1.backlog := by
  induction ts generalizing s with
  | nil => exact ⟨by simp [runAcc], hb⟩
  | cons t ts ih =>
      by_cases he : t.catalog = ∅
      · have htb := tick_backlog_empty cfg t s he
        have hb1 : 0 ≤ (tick cfg t s).1.backlog := by rw [htb]; exact hb
        obtain ⟨h1, h2⟩ := ih (tick cfg t s).1 hb1
        refine ⟨?_, h2⟩
        show (runAcc cfg ts (tick cfg t s).1).1.backlog = _
        rw [h1, htb, List.countP_cons]
        simp [he]
      · have hne : s.backlog ≠ -1 := by omega
        have htb := tick_backlog_adv cfg t s he hne
        have hb1 : 0 ≤ (tick cfg t s).1.backlog := by rw [htb]; omega
        obtain ⟨h1, h2⟩ := ih (tick cfg t s).1 hb1
        refine ⟨?_, h2⟩
        show (runAcc cfg ts (tick cfg t s).1).1.backlog = _
        rw [h1, htb, List.countP_cons]
        simp [he]
        omega

theorem pv_noSentinel (cfg : Cfg) (cat : Finset Int) (f : Int → FetchResult)
    (s : DState) (u : Int) (hu : u ≠ -1)
    (h1 : (-1 : Int) ∉ s.logged) (h2 : (-1 : Int) ∉ s.missing) :
    (-1 : Int) ∉ (processVersion cfg cat f s u).1.logged ∧
    (-1 : Int) ∉ (processVersion cfg cat f s u).1.missing := by
  constructor
  · rcases pv_logged_cases cfg cat f s u with h | h <;> rw [h]
    · exact h1
    · intro hc
      rcases Finset.mem_insert.mp hc with hc | hc
      · exact hu hc.symm
      · exact h1 hc
  · rcases pv_missing_cases cfg cat f s u with h | h | h <;> rw [h]
    · intro hc
      rcases Finset.mem_insert.mp hc with hc | hc
      · exact hu hc.symm
      · exact h2 hc
    · intro hc
      exact h2 (Finset.mem_of_mem_erase hc)
    · exact h2

theorem fold_noSentinel (cfg : Cfg) (cat : Finset Int) (f : Int → FetchResult)
    (L : List Int) (p : DState × List Event) :
    (∀ u ∈ L, u ≠ -1) → (-1 : Int) ∉ p.1.logged → (-1 : Int) ∉ p.1.missing →
      (-1 : Int) ∉ (L.foldl (stepFold cfg cat f) p).1.logged ∧
      (-1 : Int) ∉ (L.foldl (stepFold cfg cat f) p).1.missing := by
  induction L generalizing p with
  | nil => exact fun _ h1 h2 => ⟨h1, h2⟩
  | cons u L ih =>
      intro hL h1 h2
      obtain ⟨g1, g2⟩ := pv_noSentinel cfg cat f p.1 u
        (hL u (List.mem_cons_self u L)) h1 h2
      exact ih (stepFold cfg cat f p u)
        (fun x hx => hL x (List.mem_cons_of_mem u hx)) g1 g2

theorem tick_noSentinel (cfg : Cfg) (t : TickIn) (s : DState)
    (hne : t.catalog ≠ ∅) (hcat : (-1 : Int) ∉ t.catalog)
    (h : NoSentinel s) : NoSentinel (tick cfg t s).1 := by
  obtain ⟨h1, h2, h3⟩ := h
  rw [tick_nonempty cfg t s hne]
  set s1 : DState :=
    if s.backlog ≠ -1 then { s with backlog := s.backlog + 1 } else s with hs1
  have hf1 : s1.logged = s.logged := by rw [hs1]; split <;> rfl
  have hf2 : s1.missing = s.missing := by rw [hs1]; split <;> rfl
  have hf3 : 0 ≤ s1.backlog := by
    rw [hs1]; split
    · show 0 ≤ s.backlog + 1
      omega
    · exact h3
  have hL : ∀ u ∈ sortFin (targetsOf cfg.window t.catalog s.backlog s.missing),
      u ≠ -1 := by
    intro u hu
    rcases mem_targetsOf (mem_sortFin.mp hu) with hcu | ⟨hb, rfl⟩ | hm
    · exact fun hc => hcat (hc ▸ hcu)
    · intro hc
      omega
    · exact fun hc => h2 (hc ▸ hm)
  obtain ⟨g1, g2⟩ := fold_noSentinel cfg t.catalog t.fetch
    (sortFin (targetsOf cfg.window t.catalog s.backlog s.missing)) (s1, [])
    hL (by rw [hf1]; exact h1) (by rw [hf2]; exact h2)
  refine ⟨g1, g2, ?_⟩
  rw [fold_backlog]
  exact hf3

theorem runAcc_noSentinel (cfg : Cfg) (ts : List TickIn) (s : DState)
    (hts : ∀ t ∈ ts, t.catalog ≠ ∅ ∧ (-1 : Int) ∉ t.catalog)
    (h : NoSentinel s) : NoSentinel (runAcc cfg ts s).1 := by
  induction ts generalizing s with
  | nil => exact h
  | cons t ts ih =>
      have ht := hts t (List.mem_cons_self t ts)
      exact ih (tick cfg t s).1
        (fun x hx => hts x (List.mem_cons_of_mem t hx))
        (tick_noSentinel cfg t s ht.1 ht.2 h)

theorem tick_sentinel_in (cfg : Cfg) (t : TickIn) (s : DState)
    (he : t.catalog = ∅) : (-1 : Int) ∈ (tick cfg t s).1.logged := by
  by_cases hl : (-1 : Int) ∈ s.logged
  · rw [tick_empty_logged cfg t s he hl]
    exact hl
  · rw [tick_empty_fresh cfg t s he hl]
    exact Finset.mem_insert_self _ _


/-! Claim theorems. -/

theorem sorted_take_lt_drop (l : List Int) (hl : List.Sorted (· < ·) l)
    (k : Nat) : ∀ x ∈ l.take k, ∀ y ∈ l.drop k, x < y := by
  have hp : (l.take k ++ l.drop k).Pairwise (· < ·) := by
    rw [List.take_append_drop]
    exact hl
  exact (List.pairwise_append.mp hp).2.2

/-- Claim C1, counterexample: with window_size 0 the slice
available_versions[-0:] is the whole catalog, not the empty list, so the
claim's parenthetical "when w = 0 the window portion is empty" fails on
the catalog 1, 2, 3. -/
theorem claim_C1_counterexample :
    windowPortion ({1, 2, 3} : Finset Int) 0 = [1, 2, 3] ∧
    windowPortion ({1, 2, 3} : Finset Int) 0 ≠ ([] : List Int) := by
  constructor
  · decide
  · decide

/-- Claim C1 (amended): for every catalog C and window_size w ≥ 1, the
window portion is a suffix of the ascending catalog of length
min(w, card C) whose elements all belong to C and strictly exceed every
element of C left out of it: the greatest w elements of C, or all of C
when card C < w.  (For w = 0 the slice keeps the whole catalog instead of
none of it.) -/
theorem claim_C1_amended (C : Finset Int) (w : Int) (hw : 1 ≤ w) :
    windowPortion C w <:+ sortFin C ∧
    (windowPortion C w).length = min w.toNat C.card ∧
    (∀ x ∈ C, x ∉ windowPortion C w → ∀ y ∈ windowPortion C w, x < y) ∧
    (∀ y ∈ windowPortion C w, y ∈ C) := by
  have heq : windowPortion C w =
      (sortFin C).drop (((sortFin C).length : Int) + (-w)).toNat := by
    unfold windowPortion pySlice
    rw [if_pos (by omega : (-w : Int) < 0)]
  refine ⟨?_, ?_, ?_, ?_⟩
  · rw [heq]
    exact List.drop_suffix _ _
  · rw [heq, List.length_drop, sortFin_length]
    omega
  · intro x hx hnx y hy
    rw [heq] at hnx hy
    have hxl : x ∈ sortFin C := mem_sortFin.mpr hx
    have hxtake : x ∈ (sortFin C).take (((sortFin C).length : Int) + (-w)).toNat := by
      rcases List.mem_append.mp
          (by rw [List.take_append_drop]; exact hxl :
            x ∈ (sortFin C).take (((sortFin C).length : Int) + (-w)).toNat ++
              (sortFin C).drop (((sortFin C).length : Int) + (-w)).toNat) with
        h | h
      · exact h
      · exact absurd h hnx
    exact sorted_take_lt_drop (sortFin C) (sortFin_sorted_lt C) _ x hxtake y hy
  · intro y hy
    rw [heq] at hy
    exact mem_sortFin.mp (List.mem_of_mem_drop hy)

theorem claim_C1_amended_witness :
    (1 : Int) ≤ 2 ∧
    (windowPortion ({1, 2, 3} : Finset Int) 2 <:+ sortFin {1, 2, 3} ∧
      (windowPortion ({1, 2, 3} : Finset Int) 2).length =
        min (2 : Int).toNat ({1, 2, 3} : Finset Int).card ∧
      (∀ x ∈ ({1, 2, 3} : Finset Int), x ∉ windowPortion {1, 2, 3} 2 →
        ∀ y ∈ windowPortion ({1, 2, 3} : Finset Int) 2, x < y) ∧
      (∀ y ∈ windowPortion ({1, 2, 3} : Finset Int) 2,
        y ∈ ({1, 2, 3} : Finset Int))) :=
  ⟨by decide, claim_C1_amended {1, 2, 3} 2 (by decide)⟩


/-- Claim C2: a target version present in the catalog whose local artifact
is already stable (marker present; with the spec invariant that a marker
implies a payload) is skipped by the reconciler: the filesystem is not
mutated, no fetch is attempted, the version is removed from the missing
set, and "already exists locally" is logged at most once per version over
any whole run. -/
theorem claim_C2 (cfg : Cfg) (cat : Finset Int) (f : Int → FetchResult)
    (s : DState) (v : Int) (hcat : v ∈ cat)
    (hst : s.fs.stable v = true)
    (hinv : s.fs.stable v = true → s.fs.payload v = true) :
    (processVersion cfg cat f s v).1.fs = s.fs ∧
    Event.fetchAttempt v ∉ (processVersion cfg cat f s v).2 ∧
    (processVersion cfg cat f s v).1.missing = s.missing.erase v ∧
    (∀ ts s0, (runAcc cfg ts s0).2.count (Event.infoExists v) ≤ 1) := by
  have hp := hinv hst
  obtain ⟨h1, h2, -, -, hev⟩ := pv_payload cfg cat f s v hcat hp
  refine ⟨h1, ?_, h2, fun ts s0 => run_count_infoExists cfg ts s0 v⟩
  rw [hev]
  by_cases hl : v ∈ s.logged <;> simp [hl]

theorem claim_C2_witness :
    ((5 : Int) ∈ ({5} : Finset Int) ∧ stC2.fs.stable 5 = true ∧
      (stC2.fs.stable 5 = true → stC2.fs.payload 5 = true)) ∧
    ((processVersion ⟨2, -1⟩ {5} (fun _ => FetchResult.ok) stC2 5).1.fs =
        stC2.fs ∧
      Event.fetchAttempt 5 ∉
        (processVersion ⟨2, -1⟩ {5} (fun _ => FetchResult.ok) stC2 5).2 ∧
      (processVersion ⟨2, -1⟩ {5} (fun _ => FetchResult.ok) stC2 5).1.missing =
        stC2.missing.erase 5 ∧
      (∀ ts s0, (runAcc ⟨2, -1⟩ ts s0).2.count (Event.infoExists 5) ≤ 1)) :=
  ⟨⟨by decide, by decide, fun h => h⟩,
    claim_C2 ⟨2, -1⟩ {5} (fun _ => FetchResult.ok) stC2 5 (by decide) (by decide)
      (fun h => h)⟩

/-- Claim C8: a target version absent from the catalog is marked missing
and skipped: the filesystem is untouched, no fetch and no deletion is
attempted, and "not found on server" is logged at most once per version
over any whole run. -/
theorem claim_C8 (cfg : Cfg) (cat : Finset Int) (f : Int → FetchResult)
    (s : DState) (v : Int) (hnot : v ∉ cat) :
    (processVersion cfg cat f s v).1.fs = s.fs ∧
    (processVersion cfg cat f s v).1.missing = insert v s.missing ∧
    Event.fetchAttempt v ∉ (processVersion cfg cat f s v).2 ∧
    (∀ u : Int, Event.unlinkPayload u ∉ (processVersion cfg cat f s v).2 ∧
      Event.unlinkStable u ∉ (processVersion cfg cat f s v).2 ∧
      Event.infoDeleting u ∉ (processVersion cfg cat f s v).2) ∧
    (∀ ts s0, (runAcc cfg ts s0).2.count (Event.warnNotFound v) ≤ 1) := by
  obtain ⟨h1, h2, -, -, hev⟩ := pv_notin cfg cat f s v hnot
  refine ⟨h1, h2, ?_, ?_, fun ts s0 => run_count_warnNotFound cfg ts s0 v⟩
  · rw [hev]
    by_cases hl : v ∈ s.logged <;> simp [hl]
  · intro u
    rw [hev]
    by_cases hl : v ∈ s.logged <;> simp [hl]

theorem claim_C8_witness :
    ((3 : Int) ∉ ({9} : Finset Int)) ∧
    ((processVersion ⟨2, -1⟩ {9} (fun _ => FetchResult.ok)
        (freshState emptyFS (-1)) 3).1.fs = (freshState emptyFS (-1)).fs ∧
      (processVersion ⟨2, -1⟩ {9} (fun _ => FetchResult.ok)
        (freshState emptyFS (-1)) 3).1.missing =
        insert 3 (freshState emptyFS (-1)).missing ∧
      Event.fetchAttempt 3 ∉
        (processVersion ⟨2, -1⟩ {9} (fun _ => FetchResult.ok)
          (freshState emptyFS (-1)) 3).2 ∧
      (∀ u : Int,
        Event.unlinkPayload u ∉
          (processVersion ⟨2, -1⟩ {9} (fun _ => FetchResult.ok)
            (freshState emptyFS (-1)) 3).2 ∧
        Event.unlinkStable u ∉
          (processVersion ⟨2, -1⟩ {9} (fun _ => FetchResult.ok)
            (freshState emptyFS (-1)) 3).2 ∧
        Event.infoDeleting u ∉
          (processVersion ⟨2, -1⟩ {9} (fun _ => FetchResult.ok)
            (freshState emptyFS (-1)) 3).2) ∧
      (∀ ts s0, (runAcc ⟨2, -1⟩ ts s0).2.count (Event.warnNotFound 3) ≤ 1)) :=
  ⟨by decide,
    claim_C8 ⟨2, -1⟩ {9} (fun _ => FetchResult.ok) (freshState emptyFS (-1)) 3
      (by decide)⟩

/-- Claim C10: when download_version returns None, the loop state is left
entirely unchanged: no stability marker is written, the retention sweeper
is not entered, and the version is not removed from the missing set. -/
theorem claim_C10 (cfg : Cfg) (cat : Finset Int) (f : Int → FetchResult)
    (s : DState) (v : Int) (hcat : v ∈ cat) (hpay : s.fs.payload v = false)
    (hf : f v = FetchResult.noop) :
    (processVersion cfg cat f s v).1 = s ∧
    Event.markStable v ∉ (processVersion cfg cat f s v).2 ∧
    (∀ u : Int, Event.infoDeleting u ∉ (processVersion cfg cat f s v).2 ∧
      Event.unlinkPayload u ∉ (processVersion cfg cat f s v).2 ∧
      Event.unlinkStable u ∉ (processVersion cfg cat f s v).2) ∧
    (processVersion cfg cat f s v).1.missing = s.missing := by
  rw [pv_noop cfg cat f s v hcat hpay hf]
  refine ⟨rfl, by simp, ?_, rfl⟩
  intro u
  refine ⟨by simp, by simp, by simp⟩

theorem claim_C10_witness :
    ((4 : Int) ∈ ({4} : Finset Int) ∧
      (freshState emptyFS (-1)).fs.payload 4 = false ∧
      (fun _ : Int => FetchResult.noop) 4 = FetchResult.noop) ∧
    ((processVersion ⟨2, 3⟩ {4} (fun _ => FetchResult.noop)
        (freshState emptyFS (-1)) 4).1 = freshState emptyFS (-1) ∧
      Event.markStable 4 ∉
        (processVersion ⟨2, 3⟩ {4} (fun _ => FetchResult.noop)
          (freshState emptyFS (-1)) 4).2 ∧
      (∀ u : Int,
        Event.infoDeleting u ∉
          (processVersion ⟨2, 3⟩ {4} (fun _ => FetchResult.noop)
            (freshState emptyFS (-1)) 4).2 ∧
        Event.unlinkPayload u ∉
          (processVersion ⟨2, 3⟩ {4} (fun _ => FetchResult.noop)
            (freshState emptyFS (-1)) 4).2 ∧
        Event.unlinkStable u ∉
          (processVersion ⟨2, 3⟩ {4} (fun _ => FetchResult.noop)
            (freshState emptyFS (-1)) 4).2) ∧
      (processVersion ⟨2, 3⟩ {4} (fun _ => FetchResult.noop)
        (freshState emptyFS (-1)) 4).1.missing =
        (freshState emptyFS (-1)).missing) :=
  ⟨⟨by decide, by decide, rfl⟩,
    claim_C10 ⟨2, 3⟩ {4} (fun _ => FetchResult.noop) (freshState emptyFS (-1)) 4
      (by decide) (by decide) rfl⟩


/-- Claim C3: when the fetch of a target version raises, the tick logs a
warning for it, puts it into the missing set, and still processes every
version of the tick's target set: the exception never escapes the
per-version handling. -/
theorem claim_C3 (cfg : Cfg) (t : TickIn) (s : DState) (v : Int)
    (hne : t.catalog ≠ ∅)
    (hv : v ∈ targetsOf cfg.window t.catalog s.backlog s.missing)
    (hcat : v ∈ t.catalog) (hpay : s.fs.payload v = false)
    (herr : t.fetch v = FetchResult.err) :
    Event.warnDownloadError v ∈ (tick cfg t s).2 ∧
    v ∈ (tick cfg t s).1.missing ∧
    (∀ u ∈ targetsOf cfg.window t.catalog s.backlog s.missing,
      Event.processed u ∈ (tick cfg t s).2) := by
  obtain ⟨-, herr2, -⟩ := tick_fetch cfg t s v hne hv hcat hpay
  obtain ⟨hw, hm⟩ := herr2 herr
  exact ⟨hw, hm, tick_processed_all cfg t s hne⟩

theorem claim_C3_witness :
    (tickC3.catalog ≠ ∅ ∧
      (7 : Int) ∈ targetsOf (2 : Int) tickC3.catalog
        (freshState emptyFS (-1)).backlog (freshState emptyFS (-1)).missing ∧
      (7 : Int) ∈ tickC3.catalog ∧
      (freshState emptyFS (-1)).fs.payload 7 = false ∧
      tickC3.fetch 7 = FetchResult.err) ∧
    (Event.warnDownloadError 7 ∈ (tick ⟨2, -1⟩ tickC3 (freshState emptyFS (-1))).2 ∧
      (7 : Int) ∈ (tick ⟨2, -1⟩ tickC3 (freshState emptyFS (-1))).1.missing ∧
      (∀ u ∈ targetsOf (2 : Int) tickC3.catalog
          (freshState emptyFS (-1)).backlog (freshState emptyFS (-1)).missing,
        Event.processed u ∈ (tick ⟨2, -1⟩ tickC3 (freshState emptyFS (-1))).2)) :=
  ⟨⟨by decide, by decide, by decide, by decide, rfl⟩,
    claim_C3 ⟨2, -1⟩ tickC3 (freshState emptyFS (-1)) 7 (by decide) (by decide)
      (by decide) (by decide) rfl⟩

/-- Claim C5: with retention configured (a positive horizon), when the
expired version v - K has no local payload, the retention block after a
successful fetch of v is a logged no-op: the expired-not-found warning is
emitted, nothing is unlinked, every file of a version other than v is
unchanged, the processing of v still completes (v is erased from the
missing set), and the tick still processes every target version. -/
theorem claim_C5 (cfg : Cfg) (cat : Finset Int) (f : Int → FetchResult)
    (s : DState) (v : Int) (hcat : v ∈ cat) (hpv : s.fs.payload v = false)
    (hok : f v = FetchResult.ok) (hkeep : 0 < cfg.keep)
    (hexp : s.fs.payload (v - cfg.keep) = false) :
    Event.warnExpiredNotFound (v - cfg.keep) ∈ (processVersion cfg cat f s v).2 ∧
    Event.unlinkPayload (v - cfg.keep) ∉ (processVersion cfg cat f s v).2 ∧
    Event.unlinkStable (v - cfg.keep) ∉ (processVersion cfg cat f s v).2 ∧
    (∀ u : Int, u ≠ v →
      (processVersion cfg cat f s v).1.fs.payload u = s.fs.payload u ∧
      (processVersion cfg cat f s v).1.fs.stable u = s.fs.stable u) ∧
    (processVersion cfg cat f s v).1.missing = s.missing.erase v ∧
    (∀ t2 s2, t2.catalog ≠ ∅ →
      ∀ u ∈ targetsOf cfg.window t2.catalog s2.backlog s2.missing,
        Event.processed u ∈ (tick cfg t2 s2).2) := by
  have hkne : cfg.keep ≠ -1 := by omega
  have hvne : v - cfg.keep ≠ v := by omega
  rw [pv_ok cfg cat f s v hcat hpv hok]
  have hfs1p : (LocalFS.mk (setFile s.fs.payload v true)
      (setFile s.fs.stable v true)).payload (v - cfg.keep) = false := by
    show setFile s.fs.payload v true (v - cfg.keep) = false
    rw [setFile, if_neg hvne]
    exact hexp
  rw [sweep_absent v _ hkne hfs1p]
  refine ⟨by simp, by simp, by simp, ?_, rfl,
    fun t2 s2 hne2 u hu => tick_processed_all cfg t2 s2 hne2 u hu⟩
  intro u hu
  constructor
  · show setFile s.fs.payload v true u = s.fs.payload u
    rw [setFile, if_neg hu]
  · show setFile s.fs.stable v true u = s.fs.stable u
    rw [setFile, if_neg hu]

theorem claim_C5_witness :
    ((1 : Int) ∈ ({1} : Finset Int) ∧
      (freshState emptyFS (-1)).fs.payload 1 = false ∧
      (fun _ : Int => FetchResult.ok) 1 = FetchResult.ok ∧
      (0 : Int) < (Cfg.mk 1 5).keep ∧
      (freshState emptyFS (-1)).fs.payload (1 - (Cfg.mk 1 5).keep) = false) ∧
    (Event.warnExpiredNotFound (1 - (Cfg.mk 1 5).keep) ∈
        (processVersion ⟨1, 5⟩ {1} (fun _ => FetchResult.ok)
          (freshState emptyFS (-1)) 1).2 ∧
      Event.unlinkPayload (1 - (Cfg.mk 1 5).keep) ∉
        (processVersion ⟨1, 5⟩ {1} (fun _ => FetchResult.ok)
          (freshState emptyFS (-1)) 1).2 ∧
      Event.unlinkStable (1 - (Cfg.mk 1 5).keep) ∉
        (processVersion ⟨1, 5⟩ {1} (fun _ => FetchResult.ok)
          (freshState emptyFS (-1)) 1).2 ∧
      (∀ u : Int, u ≠ 1 →
        (processVersion ⟨1, 5⟩ {1} (fun _ => FetchResult.ok)
          (freshState emptyFS (-1)) 1).1.fs.payload u =
          (freshState emptyFS (-1)).fs.payload u ∧
        (processVersion ⟨1, 5⟩ {1} (fun _ => FetchResult.ok)
          (freshState emptyFS (-1)) 1).1.fs.stable u =
          (freshState emptyFS (-1)).fs.stable u) ∧
      (processVersion ⟨1, 5⟩ {1} (fun _ => FetchResult.ok)
        (freshState emptyFS (-1)) 1).1.missing =
        (freshState emptyFS (-1)).missing.erase 1 ∧
      (∀ t2 s2, t2.catalog ≠ ∅ →
        ∀ u ∈ targetsOf (Cfg.mk 1 5).window t2.catalog s2.backlog s2.missing,
          Event.processed u ∈ (tick ⟨1, 5⟩ t2 s2).2)) :=
  ⟨⟨by decide, by decide, rfl, by decide, by decide⟩,
    claim_C5 ⟨1, 5⟩ {1} (fun _ => FetchResult.ok) (freshState emptyFS (-1)) 1
      (by decide) (by decide) rfl (by decide) (by decide)⟩


/-- Claim C4, counterexample: with horizon K = 2 and a successful fetch of
v = 10, the expired version 8 has no payload but a present marker; the
code's single try block raises FileNotFoundError on the payload unlink and
never attempts the marker unlink, so the marker survives.  The two
removals are therefore not independent. -/
theorem claim_C4_counterexample :
    stC4.fs.payload 8 = false ∧ stC4.fs.stable 8 = true ∧
    (processVersion ⟨2, 2⟩ {10} (fun _ => FetchResult.ok) stC4 10).1.fs.stable
      8 = true ∧
    Event.unlinkStable 8 ∉
      (processVersion ⟨2, 2⟩ {10} (fun _ => FetchResult.ok) stC4 10).2 := by
  refine ⟨rfl, by decide, by decide, by decide⟩

/-- Claim C4 (amended): the payload and marker removals of the retention
sweep sit in one guarded block and are sequential, not independent: the
marker unlink is attempted only after the payload unlink succeeds.  If the
expired payload is absent, the block stops at the caught FileNotFoundError
and the marker (present or not) is left untouched; if the payload is
present it is removed and the marker unlink is then attempted, removing
the marker when present and logging the caught FileNotFoundError when
absent. -/
theorem claim_C4_amended (keep v : Int) (fs : LocalFS) (hk : keep ≠ -1) :
    (fs.payload (v - keep) = false →
      sweepExpired keep v fs =
        (fs, [Event.infoDeleting (v - keep),
          Event.warnExpiredNotFound (v - keep)])) ∧
    (fs.payload (v - keep) = true →
      Event.unlinkPayload (v - keep) ∈ (sweepExpired keep v fs).2 ∧
      (sweepExpired keep v fs).1.payload (v - keep) = false ∧
      (fs.stable (v - keep) = true →
        Event.unlinkStable (v - keep) ∈ (sweepExpired keep v fs).2 ∧
        (sweepExpired keep v fs).1.stable (v - keep) = false) ∧
      (fs.stable (v - keep) = false →
        Event.warnExpiredNotFound (v - keep) ∈ (sweepExpired keep v fs).2 ∧
        Event.unlinkStable (v - keep) ∉ (sweepExpired keep v fs).2 ∧
        (sweepExpired keep v fs).1.stable = fs.stable)) := by
  constructor
  · intro hp
    exact sweep_absent v fs hk hp
  · intro hp
    by_cases hs : fs.stable (v - keep) = true
    · rw [sweep_present_stable v fs hk hp hs]
      refine ⟨by simp, by simp [setFile], fun _ => ⟨by simp, by simp [setFile]⟩,
        fun hc => ?_⟩
      rw [hs] at hc
      exact Bool.noConfusion hc
    · have hs' := bool_false_of_not_true hs
      rw [sweep_present_nostable v fs hk hp hs']
      refine ⟨by simp, by simp [setFile], fun hc => ?_,
        fun _ => ⟨by simp, by simp, rfl⟩⟩
      rw [hs'] at hc
      exact Bool.noConfusion hc

theorem claim_C4_amended_witness :
    ((2 : Int) ≠ -1) ∧
    ((fsC4.payload (10 - 2) = false →
      sweepExpired 2 10 fsC4 =
        (fsC4, [Event.infoDeleting (10 - 2),
          Event.warnExpiredNotFound (10 - 2)])) ∧
    (fsC4.payload (10 - 2) = true →
      Event.unlinkPayload (10 - 2) ∈ (sweepExpired 2 10 fsC4).2 ∧
      (sweepExpired 2 10 fsC4).1.payload (10 - 2) = false ∧
      (fsC4.stable (10 - 2) = true →
        Event.unlinkStable (10 - 2) ∈ (sweepExpired 2 10 fsC4).2 ∧
        (sweepExpired 2 10 fsC4).1.stable (10 - 2) = false) ∧
      (fsC4.stable (10 - 2) = false →
        Event.warnExpiredNotFound (10 - 2) ∈ (sweepExpired 2 10 fsC4).2 ∧
        Event.unlinkStable (10 - 2) ∉ (sweepExpired 2 10 fsC4).2 ∧
        (sweepExpired 2 10 fsC4).1.stable = fsC4.stable))) :=
  ⟨by decide, claim_C4_amended 2 10 fsC4 (by decide)⟩

/-- Claim C9, counterexample: version 5 is targeted and absent from the
catalog on tick one (entering the missing set) and present on tick two,
yet tick two performs no fetch of 5: its payload already exists locally
(left by an interrupted earlier fetch), so the reconciler takes the
already-exists branch instead of downloading. -/
theorem claim_C9_counterexample :
    (5 : Int) ∉ tickOneC9.catalog ∧
    (5 : Int) ∈ targetsOf (1 : Int) tickOneC9.catalog stC9.backlog
      stC9.missing ∧
    (5 : Int) ∈ (tick ⟨1, -1⟩ tickOneC9 stC9).1.missing ∧
    (5 : Int) ∈ tickTwoC9.catalog ∧
    Event.fetchAttempt 5 ∉
      (tick ⟨1, -1⟩ tickTwoC9 (tick ⟨1, -1⟩ tickOneC9 stC9).1).2 := by
  refine ⟨by decide, by decide, by decide, by decide, by decide⟩

/-- Claim C9 (amended): a version targeted but absent from the catalog on
one tick enters the missing set; if it is present in the catalog on the
next tick and its payload is not already on disk, that tick fetches it,
and on fetch success it leaves the missing set.  (If the payload is
already present, the version is skipped and removed from the missing set
without a fetch.) -/
theorem claim_C9_amended (cfg : Cfg) (t1 t2 : TickIn) (s : DState) (v : Int)
    (hne1 : t1.catalog ≠ ∅)
    (hv1 : v ∈ targetsOf cfg.window t1.catalog s.backlog s.missing)
    (habs : v ∉ t1.catalog)
    (hpay : s.fs.payload v = false)
    (hne2 : t2.catalog ≠ ∅) (hin2 : v ∈ t2.catalog) :
    v ∈ (tick cfg t1 s).1.missing ∧
    v ∈ targetsOf cfg.window t2.catalog (tick cfg t1 s).1.backlog
      (tick cfg t1 s).1.missing ∧
    Event.fetchAttempt v ∈ (tick cfg t2 (tick cfg t1 s).1).2 ∧
    (t2.fetch v = FetchResult.ok →
      v ∉ (tick cfg t2 (tick cfg t1 s).1).1.missing) := by
  obtain ⟨hm1, hpres⟩ := tick_notfound cfg t1 s v hne1 hv1 habs
  have hpay1 := hpres hpay
  have hv2 : v ∈ targetsOf cfg.window t2.catalog (tick cfg t1 s).1.backlog
      (tick cfg t1 s).1.missing := Finset.mem_union_right _ hm1
  obtain ⟨hfa, -, hok⟩ := tick_fetch cfg t2 (tick cfg t1 s).1 v hne2 hv2 hin2
    hpay1
  exact ⟨hm1, hv2, hfa, hok⟩

theorem claim_C9_amended_witness :
    (tickOneC9.catalog ≠ ∅ ∧
      (5 : Int) ∈ targetsOf (1 : Int) tickOneC9.catalog
        (freshState emptyFS 5).backlog (freshState emptyFS 5).missing ∧
      (5 : Int) ∉ tickOneC9.catalog ∧
      (freshState emptyFS 5).fs.payload 5 = false ∧
      tickTwoC9.catalog ≠ ∅ ∧ (5 : Int) ∈ tickTwoC9.catalog) ∧
    ((5 : Int) ∈ (tick ⟨1, -1⟩ tickOneC9 (freshState emptyFS 5)).1.missing ∧
      (5 : Int) ∈ targetsOf (1 : Int) tickTwoC9.catalog
        (tick ⟨1, -1⟩ tickOneC9 (freshState emptyFS 5)).1.backlog
        (tick ⟨1, -1⟩ tickOneC9 (freshState emptyFS 5)).1.missing ∧
      Event.fetchAttempt 5 ∈
        (tick ⟨1, -1⟩ tickTwoC9
          (tick ⟨1, -1⟩ tickOneC9 (freshState emptyFS 5)).1).2 ∧
      (tickTwoC9.fetch 5 = FetchResult.ok →
        (5 : Int) ∉
          (tick ⟨1, -1⟩ tickTwoC9
            (tick ⟨1, -1⟩ tickOneC9 (freshState emptyFS 5)).1).1.missing)) :=
  ⟨⟨by decide, by decide, by decide, by decide, by decide, by decide⟩,
    claim_C9_amended ⟨1, -1⟩ tickOneC9 tickTwoC9 (freshState emptyFS 5) 5
      (by decide) (by decide) (by decide) (by decide) (by decide) (by decide)⟩


/-- Claim C6: a tick that polls an empty catalog changes nothing: the
missing set, backlog cursor and filesystem are untouched and no version is
processed (no fetch, no deletion); over a whole run from a fresh state the
"No versions available" warning appears at most once, never on an
empty-catalog tick that follows an earlier one, and exactly on the first
empty-catalog tick of a run whose earlier catalogs are non-empty and free
of the sentinel version -1. -/
theorem claim_C6 (cfg : Cfg) (pre post : List TickIn) (t : TickIn)
    (s0 : DState) (hlog : s0.logged = ∅) (hmiss : s0.missing = ∅)
    (hb : 0 ≤ s0.backlog) (hempty : t.catalog = ∅) :
    (tick cfg t (runAcc cfg pre s0).1).1.missing =
      (runAcc cfg pre s0).1.missing ∧
    (tick cfg t (runAcc cfg pre s0).1).1.backlog =
      (runAcc cfg pre s0).1.backlog ∧
    (tick cfg t (runAcc cfg pre s0).1).1.fs = (runAcc cfg pre s0).1.fs ∧
    (∀ u : Int,
      Event.processed u ∉ (tick cfg t (runAcc cfg pre s0).1).2 ∧
      Event.fetchAttempt u ∉ (tick cfg t (runAcc cfg pre s0).1).2 ∧
      Event.unlinkPayload u ∉ (tick cfg t (runAcc cfg pre s0).1).2 ∧
      Event.unlinkStable u ∉ (tick cfg t (runAcc cfg pre s0).1).2) ∧
    (runAcc cfg (pre ++ t :: post) s0).2.count Event.warnNoVersions ≤ 1 ∧
    ((∃ t2 ∈ pre, t2.catalog = ∅) →
      (tick cfg t (runAcc cfg pre s0).1).2 = []) ∧
    ((∀ t2 ∈ pre, t2.catalog ≠ ∅ ∧ (-1 : Int) ∉ t2.catalog) →
      (tick cfg t (runAcc cfg pre s0).1).2 = [Event.warnNoVersions]) := by
  have hcases : tick cfg t (runAcc cfg pre s0).1 = ((runAcc cfg pre s0).1, []) ∨
      tick cfg t (runAcc cfg pre s0).1 =
        ({ (runAcc cfg pre s0).1 with
            logged := insert (-1) (runAcc cfg pre s0).1.logged },
          [Event.warnNoVersions]) := by
    by_cases hl : (-1 : Int) ∈ (runAcc cfg pre s0).1.logged
    · exact Or.inl (tick_empty_logged cfg t _ hempty hl)
    · exact Or.inr (tick_empty_fresh cfg t _ hempty hl)
  refine ⟨?_, ?_, ?_, ?_, run_count_warnNoVersions cfg (pre ++ t :: post) s0,
    ?_, ?_⟩
  · rcases hcases with h | h <;> rw [h]
  · rcases hcases with h | h <;> rw [h]
  · rcases hcases with h | h <;> rw [h]
  · intro u
    rcases hcases with h | h <;> rw [h] <;>
      exact ⟨by simp, by simp, by simp, by simp⟩
  · rintro ⟨t2, ht2mem, ht2e⟩
    obtain ⟨a, b, rfl⟩ := List.append_of_mem ht2mem
    have hlmem : (-1 : Int) ∈ (runAcc cfg (a ++ t2 :: b) s0).1.logged := by
      rw [runAcc_append cfg a (t2 :: b) s0]
      exact (run_once cfg b (tick cfg t2 (runAcc cfg a s0).1).1 (-1)).1
        (tick_sentinel_in cfg t2 (runAcc cfg a s0).1 ht2e)
    rw [tick_empty_logged cfg t _ hempty hlmem]
  · intro hclean
    have hns : NoSentinel s0 :=
      ⟨by rw [hlog]; exact Finset.not_mem_empty _,
        by rw [hmiss]; exact Finset.not_mem_empty _, hb⟩
    have h := runAcc_noSentinel cfg pre s0 hclean hns
    rw [tick_empty_fresh cfg t _ hempty h.1]

theorem claim_C6_witness :
    ((freshState emptyFS 0).logged = ∅ ∧ (freshState emptyFS 0).missing = ∅ ∧
      (0 : Int) ≤ (freshState emptyFS 0).backlog ∧ tickCatEmpty.catalog = ∅) ∧
    ((tick ⟨2, -1⟩ tickCatEmpty
        (runAcc ⟨2, -1⟩ [tickCat3] (freshState emptyFS 0)).1).1.missing =
      (runAcc ⟨2, -1⟩ [tickCat3] (freshState emptyFS 0)).1.missing ∧
    (tick ⟨2, -1⟩ tickCatEmpty
        (runAcc ⟨2, -1⟩ [tickCat3] (freshState emptyFS 0)).1).1.backlog =
      (runAcc ⟨2, -1⟩ [tickCat3] (freshState emptyFS 0)).1.backlog ∧
    (tick ⟨2, -1⟩ tickCatEmpty
        (runAcc ⟨2, -1⟩ [tickCat3] (freshState emptyFS 0)).1).1.fs =
      (runAcc ⟨2, -1⟩ [tickCat3] (freshState emptyFS 0)).1.fs ∧
    (∀ u : Int,
      Event.processed u ∉ (tick ⟨2, -1⟩ tickCatEmpty
        (runAcc ⟨2, -1⟩ [tickCat3] (freshState emptyFS 0)).1).2 ∧
      Event.fetchAttempt u ∉ (tick ⟨2, -1⟩ tickCatEmpty
        (runAcc ⟨2, -1⟩ [tickCat3] (freshState emptyFS 0)).1).2 ∧
      Event.unlinkPayload u ∉ (tick ⟨2, -1⟩ tickCatEmpty
        (runAcc ⟨2, -1⟩ [tickCat3] (freshState emptyFS 0)).1).2 ∧
      Event.unlinkStable u ∉ (tick ⟨2, -1⟩ tickCatEmpty
        (runAcc ⟨2, -1⟩ [tickCat3] (freshState emptyFS 0)).1).2) ∧
    (runAcc ⟨2, -1⟩ ([tickCat3] ++ tickCatEmpty :: [])
        (freshState emptyFS 0)).2.count Event.warnNoVersions ≤ 1 ∧
    ((∃ t2 ∈ [tickCat3], t2.catalog = ∅) →
      (tick ⟨2, -1⟩ tickCatEmpty
        (runAcc ⟨2, -1⟩ [tickCat3] (freshState emptyFS 0)).1).2 = []) ∧
    ((∀ t2 ∈ [tickCat3], t2.catalog ≠ ∅ ∧ (-1 : Int) ∉ t2.catalog) →
      (tick ⟨2, -1⟩ tickCatEmpty
        (runAcc ⟨2, -1⟩ [tickCat3] (freshState emptyFS 0)).1).2 =
        [Event.warnNoVersions])) :=
  ⟨⟨rfl, rfl, by decide, rfl⟩,
    claim_C6 ⟨2, -1⟩ [tickCat3] [] tickCatEmpty (freshState emptyFS 0) rfl rfl
      (by decide) rfl⟩

/-- Claim C7: from a non-negative starting cursor b, the backlog cursor
after any run equals b plus the number of ticks whose catalog was
non-empty; on any tick with a non-empty catalog the cursor used (included
in the target set) equals b plus the number of earlier non-empty-catalog
ticks (b + k - 1 on the k-th such tick); an empty-catalog tick never
advances the cursor. -/
theorem claim_C7 (cfg : Cfg) (ts : List TickIn) (s0 : DState)
    (hb : 0 ≤ s0.backlog) :
    ((runAcc cfg ts s0).1.backlog =
      s0.backlog + (ts.countP (fun t => decide (t.catalog ≠ ∅)) : Int)) ∧
    (∀ pre t post, ts = pre ++ t :: post → t.catalog ≠ ∅ →
      (runAcc cfg pre s0).1.backlog =
        s0.backlog + (pre.countP (fun t2 => decide (t2.catalog ≠ ∅)) : Int) ∧
      (runAcc cfg pre s0).1.backlog ∈
        targetsOf cfg.window t.catalog (runAcc cfg pre s0).1.backlog
          (runAcc cfg pre s0).1.missing) ∧
    (∀ t s, t.catalog = ∅ → (tick cfg t s).1.backlog = s.backlog) := by
  refine ⟨(runAcc_backlog cfg ts s0 hb).1, ?_,
    fun t s he => tick_backlog_empty cfg t s he⟩
  intro pre t post hsplit hneq
  obtain ⟨h1, h2⟩ := runAcc_backlog cfg pre s0 hb
  exact ⟨h1, backlog_mem_targets _ _ _ _ (by omega)⟩

theorem claim_C7_witness :
    ((0 : Int) ≤ (freshState emptyFS 3).backlog) ∧
    (((runAcc ⟨2, -1⟩ [tickCat3, tickCatEmpty, tickCat4]
        (freshState emptyFS 3)).1.backlog =
      (freshState emptyFS 3).backlog +
        (([tickCat3, tickCatEmpty, tickCat4].countP
          (fun t => decide (t.catalog ≠ ∅))) : Int)) ∧
    (∀ pre t post,
      [tickCat3, tickCatEmpty, tickCat4] = pre ++ t :: post →
      t.catalog ≠ ∅ →
      (runAcc ⟨2, -1⟩ pre (freshState emptyFS 3)).1.backlog =
        (freshState emptyFS 3).backlog +
          ((pre.countP (fun t2 => decide (t2.catalog ≠ ∅))) : Int) ∧
      (runAcc ⟨2, -1⟩ pre (freshState emptyFS 3)).1.backlog ∈
        targetsOf (Cfg.mk 2 (-1)).window t.catalog
          (runAcc ⟨2, -1⟩ pre (freshState emptyFS 3)).1.backlog
          (runAcc ⟨2, -1⟩ pre (freshState emptyFS 3)).1.missing) ∧
    (∀ t s, t.catalog = ∅ → (tick ⟨2, -1⟩ t s).1.backlog = s.backlog)) :=
  ⟨by decide,
    claim_C7 ⟨2, -1⟩ [tickCat3, tickCatEmpty, tickCat4] (freshState emptyFS 3)
      (by decide)⟩

end Shardcast
